import Mathlib

/-!
Shallow embedding of the `aoc-helpers` pathing and grid core
(`src/generic/location.rs`, `src/generic/grid.rs`, `src/generic/pathing.rs`).

Modelling conventions:
* Rust `usize` values (coordinates, indices, costs) become `Nat`; the runs
  examined here never overflow `usize`, so plain `Nat` arithmetic agrees with
  the source.  The `Bounded::max_value()` sentinel of the generic cost type is
  instantiated at `usize::MAX = 2 ^ 64 - 1` (`UMAX`).
* The generic cost type `G : Num + Bounded + Ord` of the Rust code is
  instantiated at `Nat` (costs in scope are unsigned integers).
* The `CostCache` trait (`cache_get` / `cache_set`) is modelled as a function
  `T → Nat` together with a functional update `cache_set`; `cache_get` is
  plain application.
* Rust's `BinaryHeap` is modelled as a list where `push` is `cons` and `pop`
  (`popBy`) removes a maximal element under the node comparison.  For `DNode`
  the comparison keys (`cost`, `id`) are the whole value, so which maximal
  element is removed is observationally irrelevant; the concrete `DPNode`
  runs below never contain two entries that are equal under the comparison.
* The `&mut Cache` side effect is made explicit: the search returns the final
  cache next to the result.  Rust's run-to-completion loop becomes a
  fuel-indexed loop returning `none` when the fuel is exhausted and
  `some result` when the source loop would have returned `result`.
* Nat division by zero is total in Lean (`x / 0 = 0`) where Rust panics; all
  statements about `get_scaled` stay in the region `rows ≠ 0`, `cols ≠ 0`
  where the two semantics agree.
-/

/-- `Location` from `src/generic/location.rs`: a row/column pair of `usize`. -/
structure Location where
  row : Nat
  col : Nat
deriving DecidableEq, Repr

/-- `Location::new`. -/
def Location.new (row col : Nat) : Location := ⟨row, col⟩

/-- `Location::as_rm_index`: row-major linear index for a grid of
`num_cols` columns. -/
def Location.as_rm_index (l : Location) (num_cols : Nat) : Nat :=
  l.row * num_cols + l.col

/-- `Location::from_rm_index`: recover a `Location` from a row-major index. -/
def Location.from_rm_index (idx num_cols : Nat) : Location :=
  Location.new (idx / num_cols) (idx % num_cols)

/-- `Location::north`: absent at row 0, otherwise one row up. -/
def Location.north (l : Location) : Option Location :=
  if l.row = 0 then none else some ⟨l.row - 1, l.col⟩

/-- `Location::south`: always present, one row down. -/
def Location.south (l : Location) : Option Location :=
  some ⟨l.row + 1, l.col⟩

/-- `Location::west`: absent at column 0, otherwise one column left. -/
def Location.west (l : Location) : Option Location :=
  if l.col = 0 then none else some ⟨l.row, l.col - 1⟩

/-- `Location::east`: always present, one column right. -/
def Location.east (l : Location) : Option Location :=
  some ⟨l.row, l.col + 1⟩

/-- `AocError` (the variant relevant to the grid core) from `src/error.rs`. -/
inductive AocError where
  | GridConstructionError : String → AocError
deriving DecidableEq, Repr

/-- `Grid<T>` from `src/generic/grid.rs`: the stored table plus the cached
`rows` / `cols` counts (public fields, not re-derived on access). -/
structure Grid (T : Type) where
  locations : List (List T)
  rows : Nat
  cols : Nat
deriving Repr

/-- `Grid::new`: no validation; `rows` is the number of rows and `cols` the
length of the first row (`0` for empty input). -/
def Grid.new {T : Type} (locations : List (List T)) : Grid T :=
  { locations := locations
    rows := locations.length
    cols := (locations.head?.map List.length).getD 0 }

/-- `GridLike::get` for `Grid`: index the outer list by row, then the row by
column (bounds come from the lists themselves, not from `rows` / `cols`). -/
def Grid.get {T : Type} (g : Grid T) (location : Location) : Option T :=
  (g.locations.get? location.row).bind fun r => r.get? location.col

/-- `TryFrom<Vec<Vec<T>>> for Grid<T>`: fails when some row's length differs
from the first row's length. -/
def Grid.tryFrom {T : Type} (value : List (List T)) : Except AocError (Grid T) :=
  let rows := value.length
  let cols := (value.head?.map List.length).getD 0
  if value.any fun c => c.length != cols then
    Except.error (AocError.GridConstructionError "Not all rows are the same length")
  else
    Except.ok { locations := value, rows := rows, cols := cols }

/-- `Scalable::get_scaled`: treat the grid as tiled `scale × scale` times;
out-of-range tile factors give `none`, otherwise the transform is applied to
the base cell together with the two tile offsets. -/
def Grid.get_scaled {T : Type} (g : Grid T) (location : Location) (scale : Nat)
    (scale_fn : T → Nat → Nat → T) : Option T :=
  let r_fac := location.row / g.rows
  let c_fac := location.col / g.cols
  if scale ≤ r_fac ∨ scale ≤ c_fac then none
  else
    (g.get ⟨location.row % g.rows, location.col % g.cols⟩).map
      fun v => scale_fn v r_fac c_fac

/-- `usize::MAX`, the `Bounded::max_value()` sentinel for `usize` costs. -/
def UMAX : Nat := 2 ^ 64 - 1

/-- Three-way comparison derived from a linear order, matching Rust's
`Ord::cmp` on the corresponding types. -/
def cmpVia {T : Type} [LinearOrder T] (a b : T) : Ordering :=
  if a < b then Ordering.lt else if b < a then Ordering.gt else Ordering.eq

/-- `DEdge<T, G>` from `src/generic/pathing.rs`: a directed edge target
with its traversal cost. -/
structure DEdge (T : Type) where
  id : T
  cost : Nat
deriving DecidableEq, Repr

/-- `DNode<T, G>`: a cost-only frontier entry. -/
structure DNode (T : Type) where
  id : T
  cost : Nat
deriving DecidableEq, Repr

/-- `DNode::cmp`: `other.cost.cmp(&self.cost).then_with(|| other.id.cmp(&self.id))`
— both keys compared in reverse, so that the max-heap pops lowest cost first. -/
def DNode.cmp {T : Type} [LinearOrder T] (a b : DNode T) : Ordering :=
  (cmpVia b.cost a.cost).then (cmpVia b.id a.id)

/-- `DPNode<T, G>`: a frontier entry carrying the path taken so far. -/
structure DPNode (T : Type) where
  id : T
  cost : Nat
  path : List T
deriving DecidableEq, Repr

/-- `DPNode::cmp`: same reversed two-key comparison as `DNode::cmp`
(the `path` field does not participate). -/
def DPNode.cmp {T : Type} [LinearOrder T] (a b : DPNode T) : Ordering :=
  (cmpVia b.cost a.cost).then (cmpVia b.id a.id)

/-- `CostCache::cache_set` for the function-backed cache model: update the
best-known cost of one node. -/
def cache_set {T : Type} [DecidableEq T] (cache : T → Nat) (id : T) (val : Nat) :
    T → Nat :=
  fun x => if x = id then val else cache x

/-- `BinaryHeap::pop`: remove a maximal element under `cmp` (the leftmost one
when several compare equal) and return it with the remaining heap. -/
def popBy {α : Type} (cmp : α → α → Ordering) : List α → Option (α × List α)
  | [] => none
  | x :: xs =>
    match popBy cmp xs with
    | none => some (x, [])
    | some (m, rest) =>
      if cmp x m = Ordering.lt then some (m, x :: rest) else some (x, xs)

/-- The edge-relaxation pass of `dijkstra_cost`: for each outgoing edge whose
candidate cost improves on the cache, update the cache and push a new
frontier entry. -/
def relaxEdges {T : Type} [DecidableEq T] (cost : Nat) :
    List (DEdge T) → List (DNode T) → (T → Nat) → List (DNode T) × (T → Nat)
  | [], heap, cache => (heap, cache)
  | e :: rest, heap, cache =>
    if cost + e.cost < cache e.id then
      relaxEdges cost rest (⟨e.id, cost + e.cost⟩ :: heap)
        (cache_set cache e.id (cost + e.cost))
    else
      relaxEdges cost rest heap cache

/-- The `while let Some(...) = heap.pop()` loop of `dijkstra_cost`, with the
fuel counting remaining iterations: `none` means the fuel ran out, and
`some (r, c)` means the source loop returned `r` with final cache state `c`. -/
def dijkstraLoop {T : Type} [DecidableEq T] [LinearOrder T]
    (edges_fn : T → List (DEdge T)) (goal : T) :
    Nat → List (DNode T) → (T → Nat) → Option (Option Nat × (T → Nat))
  | 0, _, _ => none
  | fuel + 1, heap, cache =>
    match popBy DNode.cmp heap with
    | none => some (none, cache)
    | some (n, rest) =>
      if n.id = goal then some (some n.cost, cache)
      else if cache n.id < n.cost then dijkstraLoop edges_fn goal fuel rest cache
      else
        let hc := relaxEdges n.cost (edges_fn n.id) rest cache
        dijkstraLoop edges_fn goal fuel hc.1 hc.2

/-- `dijkstra_cost`: seed the cache with cost zero at the start node, push the
start frontier entry, and run the loop.  The `&mut Cache` side effect is made
explicit by returning the final cache next to the `Option<G>` result. -/
def dijkstra_cost {T : Type} [DecidableEq T] [LinearOrder T] (start goal : T)
    (cache : T → Nat) (edges_fn : T → List (DEdge T)) (fuel : Nat) :
    Option (Option Nat × (T → Nat)) :=
  dijkstraLoop edges_fn goal fuel [⟨start, 0⟩] (cache_set cache start 0)

/-- The edge-relaxation pass of `dijkstra_path`: like `relaxEdges` but each
pushed entry extends the current path with the edge target. -/
def relaxEdgesP {T : Type} [DecidableEq T] (cost : Nat) (path : List T) :
    List (DEdge T) → List (DPNode T) → (T → Nat) → List (DPNode T) × (T → Nat)
  | [], heap, cache => (heap, cache)
  | e :: rest, heap, cache =>
    if cost + e.cost < cache e.id then
      relaxEdgesP cost path rest (⟨e.id, cost + e.cost, path ++ [e.id]⟩ :: heap)
        (cache_set cache e.id (cost + e.cost))
    else
      relaxEdgesP cost path rest heap cache

/-- The loop of `dijkstra_path`: on reaching the goal it returns the recorded
path (and only the path — the cost field of the popped entry is dropped). -/
def dijkstraLoopP {T : Type} [DecidableEq T] [LinearOrder T]
    (edges_fn : T → List (DEdge T)) (goal : T) :
    Nat → List (DPNode T) → (T → Nat) → Option (Option (List T) × (T → Nat))
  | 0, _, _ => none
  | fuel + 1, heap, cache =>
    match popBy DPNode.cmp heap with
    | none => some (none, cache)
    | some (n, rest) =>
      if n.id = goal then some (some n.path, cache)
      else if cache n.id < n.cost then dijkstraLoopP edges_fn goal fuel rest cache
      else
        let hc := relaxEdgesP n.cost n.path (edges_fn n.id) rest cache
        dijkstraLoopP edges_fn goal fuel hc.1 hc.2

/-- `dijkstra_path`: seed cache and frontier (path `[start]`) and run the
loop; the result payload is `Option<Vec<T>>`, the node sequence alone. -/
def dijkstra_path {T : Type} [DecidableEq T] [LinearOrder T] (start goal : T)
    (cache : T → Nat) (edges_fn : T → List (DEdge T)) (fuel : Nat) :
    Option (Option (List T) × (T → Nat)) :=
  dijkstraLoopP edges_fn goal fuel [⟨start, 0, [start]⟩] (cache_set cache start 0)

/-- One edge step of the graph induced by an edge function. -/
def edgeStep {T : Type} (edges_fn : T → List (DEdge T)) (a b : T) : Prop :=
  ∃ e ∈ edges_fn a, e.id = b

/-- Reachability along edges produced by the edge function. -/
def Reaches {T : Type} (edges_fn : T → List (DEdge T)) : T → T → Prop :=
  Relation.ReflTransGen (edgeStep edges_fn)

/-- Total cost of walking a node sequence along the edge function: `some 0`
for a single node, edge costs summed along consecutive pairs, `none` when a
needed edge is missing (or the sequence is empty). -/
def path_cost {T : Type} [DecidableEq T] (edges_fn : T → List (DEdge T)) :
    List T → Option Nat
  | [] => none
  | [_] => some 0
  | a :: b :: rest =>
    match (edges_fn a).find? (fun e => e.id == b) with
    | none => none
    | some e => (path_cost edges_fn (b :: rest)).map (e.cost + ·)

/-- The 3-node example graph: edges A→B of cost 1, B→C of cost 1, A→C of
cost 5, with A, B, C encoded as `0, 1, 2 : Fin 3`. -/
def exEdges : Fin 3 → List (DEdge (Fin 3))
  | 0 => [⟨1, 1⟩, ⟨2, 5⟩]
  | 1 => [⟨2, 1⟩]
  | 2 => []

/-- A cache in which every node initially reads as the maximum cost. -/
def maxCache {T : Type} : T → Nat := fun _ => UMAX

/-- Termination measure for the Dijkstra loops: twice the total of all cached
costs plus the heap size.  Every loop iteration strictly decreases it. -/
def measureHC {T : Type} [Fintype T] (heapLen : Nat) (cache : T → Nat) : Nat :=
  2 * (∑ t : T, cache t) + heapLen

theorem cmpVia_self {T : Type} [LinearOrder T] (a : T) : cmpVia a a = Ordering.eq := by
  simp [cmpVia]

theorem cmpVia_lt {T : Type} [LinearOrder T] {a b : T} (h : a < b) :
    cmpVia a b = Ordering.lt := by
  simp [cmpVia, h]

theorem cmpVia_gt {T : Type} [LinearOrder T] {a b : T} (h : b < a) :
    cmpVia a b = Ordering.gt := by
  simp [cmpVia, h, asymm h]

theorem sum_map_length_eq {T : Type} (cols : Nat) (v : List (List T))
    (h : ∀ r ∈ v, r.length = cols) : (v.map List.length).sum = v.length * cols := by
  induction v with
  | nil => simp
  | cons r rest ih =>
    have hr : r.length = cols := h r (List.mem_cons_self _ _)
    have hrest := ih fun x hx => h x (List.mem_cons_of_mem _ hx)
    simp [hr, hrest, Nat.succ_mul, Nat.add_comm]

theorem popBy_eq_none {α : Type} (cmp : α → α → Ordering) (l : List α) :
    popBy cmp l = none ↔ l = [] := by
  cases l with
  | nil => simp [popBy]
  | cons x xs =>
    simp only [popBy]
    cases hp : popBy cmp xs with
    | none =>
      show some (x, ([] : List α)) = none ↔ x :: xs = []
      simp
    | some p =>
      obtain ⟨m, rest⟩ := p
      show (if cmp x m = Ordering.lt then some (m, x :: rest)
        else some (x, xs)) = none ↔ x :: xs = []
      constructor
      · intro h
        split at h <;> exact Option.noConfusion h
      · intro h
        exact List.noConfusion h

theorem popBy_spec {α : Type} (cmp : α → α → Ordering) :
    ∀ (l : List α) (m : α) (rest : List α), popBy cmp l = some (m, rest) →
      m ∈ l ∧ rest.length + 1 = l.length ∧ ∀ x ∈ rest, x ∈ l := by
  intro l
  induction l with
  | nil => intro m rest h; simp [popBy] at h
  | cons x xs ih =>
    intro m rest h
    simp only [popBy] at h
    cases hp : popBy cmp xs with
    | none =>
      rw [hp] at h
      have h2 : some (x, ([] : List α)) = some (m, rest) := h
      have hxs : xs = [] := (popBy_eq_none cmp xs).mp hp
      subst hxs
      have hinj := Option.some.inj h2
      obtain ⟨rfl, rfl⟩ : x = m ∧ ([] : List α) = rest :=
        ⟨congrArg Prod.fst hinj, congrArg Prod.snd hinj⟩
      exact ⟨List.mem_cons_self _ _, rfl, by simp⟩
    | some p =>
      obtain ⟨m', rest'⟩ := p
      rw [hp] at h
      have h2 : (if cmp x m' = Ordering.lt then some (m', x :: rest')
          else some (x, xs)) = some (m, rest) := h
      obtain ⟨hmem', hlen', hsub'⟩ := ih m' rest' hp
      by_cases hc : cmp x m' = Ordering.lt
      · rw [if_pos hc] at h2
        have hinj := Option.some.inj h2
        obtain ⟨rfl, rfl⟩ : m' = m ∧ x :: rest' = rest :=
          ⟨congrArg Prod.fst hinj, congrArg Prod.snd hinj⟩
        refine ⟨List.mem_cons_of_mem _ hmem', by simp [← hlen'], ?_⟩
        intro y hy
        rcases List.mem_cons.mp hy with rfl | hy'
        · exact List.mem_cons_self _ _
        · exact List.mem_cons_of_mem _ (hsub' y hy')
      · rw [if_neg hc] at h2
        have hinj := Option.some.inj h2
        obtain ⟨rfl, rfl⟩ : x = m ∧ xs = rest :=
          ⟨congrArg Prod.fst hinj, congrArg Prod.snd hinj⟩
        exact ⟨List.mem_cons_self _ _, rfl, fun y hy => List.mem_cons_of_mem _ hy⟩

theorem cache_set_eq_update {T : Type} [DecidableEq T] (cache : T → Nat)
    (id : T) (val : Nat) :
    cache_set cache id val = Function.update cache id val := by
  funext x
  simp [cache_set, Function.update_apply]

theorem sum_cache_set_lt {T : Type} [DecidableEq T] [Fintype T] (cache : T → Nat)
    (id : T) (val : Nat) (h : val < cache id) :
    (∑ t : T, cache_set cache id val t) < ∑ t : T, cache t := by
  rw [cache_set_eq_update, Finset.sum_update_of_mem (Finset.mem_univ id)]
  have hsplit := Finset.add_sum_erase Finset.univ cache (Finset.mem_univ id)
  rw [Finset.erase_eq] at hsplit
  omega

theorem relaxEdges_measure {T : Type} [DecidableEq T] [Fintype T] (cost : Nat) :
    ∀ (es : List (DEdge T)) (heap : List (DNode T)) (cache : T → Nat),
      2 * (∑ t : T, (relaxEdges cost es heap cache).2 t) +
        (relaxEdges cost es heap cache).1.length ≤
      2 * (∑ t : T, cache t) + heap.length := by
  intro es
  induction es with
  | nil => intro heap cache; simp [relaxEdges]
  | cons e rest ih =>
    intro heap cache
    simp only [relaxEdges]
    by_cases hlt : cost + e.cost < cache e.id
    · rw [if_pos hlt]
      refine le_trans (ih _ _) ?_
      have hs := sum_cache_set_lt cache e.id (cost + e.cost) hlt
      simp only [List.length_cons]
      omega
    · rw [if_neg hlt]
      exact ih _ _

theorem relaxEdges_mem {T : Type} [DecidableEq T] (cost : Nat) :
    ∀ (es : List (DEdge T)) (heap : List (DNode T)) (cache : T → Nat)
      (x : DNode T), x ∈ (relaxEdges cost es heap cache).1 →
      x ∈ heap ∨ ∃ e ∈ es, x.id = e.id := by
  intro es
  induction es with
  | nil => intro heap cache x hx; exact Or.inl (by simpa [relaxEdges] using hx)
  | cons e rest ih =>
    intro heap cache x hx
    simp only [relaxEdges] at hx
    by_cases hlt : cost + e.cost < cache e.id
    · rw [if_pos hlt] at hx
      rcases ih _ _ _ hx with hmem | ⟨e', he', hid⟩
      · rcases List.mem_cons.mp hmem with rfl | hmem'
        · exact Or.inr ⟨e, List.mem_cons_self _ _, rfl⟩
        · exact Or.inl hmem'
      · exact Or.inr ⟨e', List.mem_cons_of_mem _ he', hid⟩
    · rw [if_neg hlt] at hx
      rcases ih _ _ _ hx with hmem | ⟨e', he', hid⟩
      · exact Or.inl hmem
      · exact Or.inr ⟨e', List.mem_cons_of_mem _ he', hid⟩

theorem dijkstraLoop_unreachable {T : Type} [DecidableEq T] [LinearOrder T]
    [Fintype T] (edges_fn : T → List (DEdge T)) (start goal : T)
    (hunreach : ¬ Reaches edges_fn start goal) :
    ∀ (fuel : Nat) (heap : List (DNode T)) (cache : T → Nat),
      2 * (∑ t : T, cache t) + heap.length < fuel →
      (∀ x ∈ heap, Reaches edges_fn start x.id) →
      ∃ c', dijkstraLoop edges_fn goal fuel heap cache = some (none, c') := by
  intro fuel
  induction fuel with
  | zero => intro heap cache hm _; exact absurd hm (Nat.not_lt_zero _)
  | succ n ih =>
    intro heap cache hm hinv
    simp only [dijkstraLoop]
    cases hp : popBy DNode.cmp heap with
    | none => exact ⟨cache, rfl⟩
    | some p =>
      obtain ⟨m, rest⟩ := p
      obtain ⟨hm_mem, hlen, hsub⟩ := popBy_spec DNode.cmp heap m rest hp
      have hreach : Reaches edges_fn start m.id := hinv m hm_mem
      have hg : ¬ m.id = goal := fun h => hunreach (h ▸ hreach)
      show ∃ c', (if m.id = goal then some (some m.cost, cache)
          else if cache m.id < m.cost then dijkstraLoop edges_fn goal n rest cache
          else dijkstraLoop edges_fn goal n
            (relaxEdges m.cost (edges_fn m.id) rest cache).1
            (relaxEdges m.cost (edges_fn m.id) rest cache).2) = some (none, c')
      rw [if_neg hg]
      by_cases hs : cache m.id < m.cost
      · rw [if_pos hs]
        exact ih rest cache (by omega) (fun x hx => hinv x (hsub x hx))
      · rw [if_neg hs]
        have hmeas := relaxEdges_measure m.cost (edges_fn m.id) rest cache
        have hinv' : ∀ x ∈ (relaxEdges m.cost (edges_fn m.id) rest cache).1,
            Reaches edges_fn start x.id := by
          intro x hx
          rcases relaxEdges_mem m.cost (edges_fn m.id) rest cache x hx with
            hmem | ⟨e, he, hid⟩
          · exact hinv x (hsub x hmem)
          · exact Relation.ReflTransGen.tail hreach ⟨e, he, hid.symm⟩
        exact ih _ _ (by omega) hinv'

/-- C3: on every finite graph (node type a `Fintype`, costs non-negative by
the `Nat` cost model) whose goal is unreachable from the start,
`dijkstra_cost` terminates — a finite fuel bound derived from the cache
totals suffices, since every loop iteration strictly shrinks the measure
until the queue empties — and returns `none`, an absence signal. -/
theorem C3_unreachable_returns_none {T : Type} [DecidableEq T] [LinearOrder T]
    [Fintype T] (start goal : T) (cache : T → Nat)
    (edges_fn : T → List (DEdge T)) (h : ¬ Reaches edges_fn start goal) :
    ∃ fuel, (dijkstra_cost start goal cache edges_fn fuel).map Prod.fst =
      some none := by
  have hinv : ∀ x ∈ ([⟨start, 0⟩] : List (DNode T)), Reaches edges_fn start x.id := by
    intro x hx
    rcases List.mem_singleton.mp hx with rfl
    exact Relation.ReflTransGen.refl
  obtain ⟨c', hc'⟩ := dijkstraLoop_unreachable edges_fn start goal h
    (2 * (∑ t : T, cache_set cache start 0 t) + 2) [⟨start, 0⟩]
    (cache_set cache start 0) (by simp only [List.length_singleton]; omega) hinv
  refine ⟨2 * (∑ t : T, cache_set cache start 0 t) + 2, ?_⟩
  show (dijkstraLoop edges_fn goal _ [⟨start, 0⟩]
    (cache_set cache start 0)).map Prod.fst = some none
  rw [hc']
  rfl

theorem C3_unreachable_returns_none_witness :
    (¬ Reaches (fun _ => ([] : List (DEdge (Fin 2)))) 0 1) ∧
    ∃ fuel, (dijkstra_cost (0 : Fin 2) 1 maxCache (fun _ => []) fuel).map
      Prod.fst = some none := by
  have hnr : ¬ Reaches (fun _ => ([] : List (DEdge (Fin 2)))) 0 1 := by
    intro hr
    rcases Relation.ReflTransGen.cases_head hr with heq | ⟨b, hstep, _⟩
    · exact absurd heq (by decide)
    · obtain ⟨e, he, _⟩ := hstep
      exact absurd he (List.not_mem_nil e)
  exact ⟨hnr, C3_unreachable_returns_none 0 1 maxCache (fun _ => []) hnr⟩

theorem dijkstraLoop_mono {T : Type} [DecidableEq T] [LinearOrder T]
    (edges_fn : T → List (DEdge T)) (goal : T) :
    ∀ fuel heap cache r, dijkstraLoop edges_fn goal fuel heap cache = some r →
      dijkstraLoop edges_fn goal (fuel + 1) heap cache = some r := by
  intro fuel
  induction fuel with
  | zero => intro heap cache r h; simp [dijkstraLoop] at h
  | succ n ih =>
    intro heap cache r h
    simp only [dijkstraLoop] at h ⊢
    cases hp : popBy DNode.cmp heap with
    | none => simp only [hp] at h ⊢; exact h
    | some p =>
      obtain ⟨m, rest⟩ := p
      simp only [hp] at h ⊢
      by_cases hg : m.id = goal
      · simp only [if_pos hg] at h ⊢; exact h
      · simp only [if_neg hg] at h ⊢
        by_cases hs : cache m.id < m.cost
        · simp only [if_pos hs] at h ⊢; exact ih _ _ _ h
        · simp only [if_neg hs] at h ⊢; exact ih _ _ _ h

theorem dijkstraLoop_mono_le {T : Type} [DecidableEq T] [LinearOrder T]
    (edges_fn : T → List (DEdge T)) (goal : T) (heap : List (DNode T))
    (cache : T → Nat) (r : Option Nat × (T → Nat)) {f f' : Nat} (h : f ≤ f')
    (hr : dijkstraLoop edges_fn goal f heap cache = some r) :
    dijkstraLoop edges_fn goal f' heap cache = some r := by
  obtain ⟨k, rfl⟩ := Nat.exists_eq_add_of_le h
  clear h
  induction k with
  | zero => exact hr
  | succ n ih =>
    have heq : f + (n + 1) = (f + n) + 1 := rfl
    rw [heq]
    exact dijkstraLoop_mono edges_fn goal (f + n) heap cache r ih

theorem dijkstra_cost_mono_le {T : Type} [DecidableEq T] [LinearOrder T]
    (start goal : T) (cache : T → Nat) (edges_fn : T → List (DEdge T))
    (r : Option Nat × (T → Nat)) {f f' : Nat} (h : f ≤ f')
    (hr : dijkstra_cost start goal cache edges_fn f = some r) :
    dijkstra_cost start goal cache edges_fn f' = some r :=
  dijkstraLoop_mono_le _ _ _ _ _ h hr

theorem dijkstraLoopP_mono {T : Type} [DecidableEq T] [LinearOrder T]
    (edges_fn : T → List (DEdge T)) (goal : T) :
    ∀ fuel heap cache r, dijkstraLoopP edges_fn goal fuel heap cache = some r →
      dijkstraLoopP edges_fn goal (fuel + 1) heap cache = some r := by
  intro fuel
  induction fuel with
  | zero => intro heap cache r h; simp [dijkstraLoopP] at h
  | succ n ih =>
    intro heap cache r h
    simp only [dijkstraLoopP] at h ⊢
    cases hp : popBy DPNode.cmp heap with
    | none => simp only [hp] at h ⊢; exact h
    | some p =>
      obtain ⟨m, rest⟩ := p
      simp only [hp] at h ⊢
      by_cases hg : m.id = goal
      · simp only [if_pos hg] at h ⊢; exact h
      · simp only [if_neg hg] at h ⊢
        by_cases hs : cache m.id < m.cost
        · simp only [if_pos hs] at h ⊢; exact ih _ _ _ h
        · simp only [if_neg hs] at h ⊢; exact ih _ _ _ h

theorem dijkstra_path_mono_le {T : Type} [DecidableEq T] [LinearOrder T]
    (start goal : T) (cache : T → Nat) (edges_fn : T → List (DEdge T))
    (r : Option (List T) × (T → Nat)) {f f' : Nat} (h : f ≤ f')
    (hr : dijkstra_path start goal cache edges_fn f = some r) :
    dijkstra_path start goal cache edges_fn f' = some r := by
  obtain ⟨k, rfl⟩ := Nat.exists_eq_add_of_le h
  clear h
  induction k with
  | zero => exact hr
  | succ n ih =>
    have heq : f + (n + 1) = (f + n) + 1 := rfl
    rw [heq]
    exact dijkstraLoopP_mono edges_fn goal (f + n) _ _ r ih

/-- C1: on the 3-node graph A→B (cost 1), B→C (cost 1), A→C (cost 5), with a
cache initially reading the maximum cost everywhere, `dijkstra_cost A C`
terminates (any fuel covering its three loop iterations) and returns
`some 2`, the cost of the path through B, not 5. -/
theorem C1_dijkstra_cost_3node (fuel : Nat) (h : 3 ≤ fuel) :
    (dijkstra_cost (0 : Fin 3) 2 maxCache exEdges fuel).map Prod.fst =
      some (some 2) := by
  have h3 : (dijkstra_cost (0 : Fin 3) 2 maxCache exEdges 3).map Prod.fst =
      some (some 2) := by decide
  obtain ⟨p, hp, hfst⟩ := Option.map_eq_some'.mp h3
  rw [dijkstra_cost_mono_le 0 2 maxCache exEdges p h hp, Option.map_some', hfst]

theorem C1_dijkstra_cost_3node_witness :
    3 ≤ 8 ∧ (dijkstra_cost (0 : Fin 3) 2 maxCache exEdges 8).map Prod.fst =
      some (some 2) :=
  ⟨by decide, C1_dijkstra_cost_3node 8 (by decide)⟩

/-- C2 counterexample observation: on the 3-node graph the successful result
payload of `dijkstra_path` is the bare node sequence `[A, B, C]` — the
function's result type `Option<Vec<T>>` carries no cost component, so the
claimed `Option<(Cost, sequence of NodeId)>` return shape does not hold. -/
theorem C2_cex_path_without_cost :
    (dijkstra_path (0 : Fin 3) 2 maxCache exEdges 3).map Prod.fst =
      some (some [0, 1, 2]) := by
  decide

/-- C2 (amended): `dijkstra_path` returns `Option<Vec<NodeId>>` — on success
only the node sequence, not the cost; on the 3-node graph it terminates with
the path `[A, B, C]`, whose traversal cost along the edge function is 2. -/
theorem C2_dijkstra_path_3node (fuel : Nat) (h : 3 ≤ fuel) :
    (dijkstra_path (0 : Fin 3) 2 maxCache exEdges fuel).map Prod.fst =
      some (some [0, 1, 2]) ∧
    path_cost exEdges [0, 1, 2] = some 2 := by
  refine ⟨?_, by decide⟩
  have h3 : (dijkstra_path (0 : Fin 3) 2 maxCache exEdges 3).map Prod.fst =
      some (some [0, 1, 2]) := by decide
  obtain ⟨p, hp, hfst⟩ := Option.map_eq_some'.mp h3
  rw [dijkstra_path_mono_le 0 2 maxCache exEdges p h hp, Option.map_some', hfst]

theorem C2_dijkstra_path_3node_witness :
    3 ≤ 8 ∧
    ((dijkstra_path (0 : Fin 3) 2 maxCache exEdges 8).map Prod.fst =
      some (some [0, 1, 2]) ∧
    path_cost exEdges [0, 1, 2] = some 2) :=
  ⟨by decide, C2_dijkstra_path_3node 8 (by decide)⟩

/-- C10: when `start = goal`, for every cache and every edge function,
`dijkstra_cost` returns `some 0` on the very first pop (one unit of fuel
suffices), and the final cache differs from the input only in the start
node's entry, set to zero.  The right-hand side does not mention `edges_fn`,
so the result is independent of the edge function — it is never consulted. -/
theorem C10_start_eq_goal {T : Type} [DecidableEq T] [LinearOrder T] (start : T)
    (cache : T → Nat) (edges_fn : T → List (DEdge T)) (fuel : Nat) :
    dijkstra_cost start start cache edges_fn (fuel + 1) =
      some (some 0, cache_set cache start 0) := by
  simp [dijkstra_cost, dijkstraLoop, popBy]

/-- C4: the claim says that among equal-cost frontier entries the one with
the **greater** node identity is the maximum of the declared `Ord`; the code
reverses the identity comparison as well, so `DNode::cmp ⟨1,5⟩ ⟨0,5⟩` is
`Less`, not `Greater` — the greater identity is the minimum, refuting the
claim (likewise for `DPNode`). -/
theorem C4_cex_greater_id_not_max :
    DNode.cmp (⟨1, 5⟩ : DNode Nat) ⟨0, 5⟩ = Ordering.lt ∧
    ¬ DNode.cmp (⟨1, 5⟩ : DNode Nat) ⟨0, 5⟩ = Ordering.gt ∧
    DPNode.cmp (⟨1, 5, []⟩ : DPNode Nat) ⟨0, 5, []⟩ = Ordering.lt ∧
    ¬ DPNode.cmp (⟨1, 5, []⟩ : DPNode Nat) ⟨0, 5, []⟩ = Ordering.gt := by
  decide

/-- C4 (amended): for `DNode` and `DPNode` frontier entries with equal cost,
the entry whose node identity compares **lesser** is the maximum under the
declared `Ord` instance (both comparison keys are reversed), so the max-heap
pops the lesser identity first among equal-cost entries. -/
theorem C4_amended_lesser_id_max {T : Type} [LinearOrder T]
    (a b : DNode T) (p q : DPNode T) (hc : a.cost = b.cost) (hid : a.id < b.id)
    (hpc : p.cost = q.cost) (hpid : p.id < q.id) :
    DNode.cmp a b = Ordering.gt ∧ DNode.cmp b a = Ordering.lt ∧
    DPNode.cmp p q = Ordering.gt ∧ DPNode.cmp q p = Ordering.lt := by
  have e1 : cmpVia b.cost a.cost = Ordering.eq := by rw [hc]; exact cmpVia_self _
  have e2 : cmpVia a.cost b.cost = Ordering.eq := by rw [hc]; exact cmpVia_self _
  have e3 : cmpVia q.cost p.cost = Ordering.eq := by rw [hpc]; exact cmpVia_self _
  have e4 : cmpVia p.cost q.cost = Ordering.eq := by rw [hpc]; exact cmpVia_self _
  refine ⟨?_, ?_, ?_, ?_⟩
  · simp only [DNode.cmp]; rw [e1]; exact cmpVia_gt hid
  · simp only [DNode.cmp]; rw [e2]; exact cmpVia_lt hid
  · simp only [DPNode.cmp]; rw [e3]; exact cmpVia_gt hpid
  · simp only [DPNode.cmp]; rw [e4]; exact cmpVia_lt hpid

theorem C4_amended_lesser_id_max_witness :
    DNode.cmp (⟨0, 5⟩ : DNode Nat) ⟨1, 5⟩ = Ordering.gt ∧
    DNode.cmp (⟨1, 5⟩ : DNode Nat) ⟨0, 5⟩ = Ordering.lt ∧
    DPNode.cmp (⟨0, 5, []⟩ : DPNode Nat) ⟨1, 5, []⟩ = Ordering.gt ∧
    DPNode.cmp (⟨1, 5, []⟩ : DPNode Nat) ⟨0, 5, []⟩ = Ordering.lt :=
  C4_amended_lesser_id_max ⟨0, 5⟩ ⟨1, 5⟩ ⟨0, 5, []⟩ ⟨1, 5, []⟩ rfl (by decide) rfl
    (by decide)

/-- C6: the row-major linear-index conversion round-trips exactly whenever
the column is within the width. -/
theorem C6_rm_index_round_trip (loc : Location) (w : Nat) (h : loc.col < w) :
    Location.from_rm_index (loc.as_rm_index w) w = loc := by
  cases loc with
  | mk r c =>
    have hw : 0 < w := Nat.lt_of_le_of_lt (Nat.zero_le _) h
    simp only [Location.as_rm_index, Location.from_rm_index, Location.new,
      Nat.mul_comm r w]
    have h1 : (w * r + c) / w = r := by
      rw [Nat.mul_add_div hw, Nat.div_eq_of_lt h, Nat.add_zero]
    have h2 : (w * r + c) % w = c := by
      rw [Nat.mul_add_mod, Nat.mod_eq_of_lt h]
    rw [h1, h2]

theorem C6_rm_index_round_trip_witness :
    Location.from_rm_index (Location.as_rm_index ⟨2, 3⟩ 5) 5 = ⟨2, 3⟩ :=
  C6_rm_index_round_trip ⟨2, 3⟩ 5 (by decide)

/-- C8: `north` is absent exactly at row 0 (otherwise one row up), `west` is
absent exactly at column 0 (otherwise one column left), and `south`, `east`
are always present at one step down / right. -/
theorem C8_directional_accessors (loc : Location) :
    (loc.north = none ↔ loc.row = 0) ∧
    (loc.row ≠ 0 → loc.north = some ⟨loc.row - 1, loc.col⟩) ∧
    (loc.west = none ↔ loc.col = 0) ∧
    (loc.col ≠ 0 → loc.west = some ⟨loc.row, loc.col - 1⟩) ∧
    loc.south = some ⟨loc.row + 1, loc.col⟩ ∧
    loc.east = some ⟨loc.row, loc.col + 1⟩ := by
  refine ⟨?_, fun h => ?_, ?_, fun h => ?_, rfl, rfl⟩
  · simp only [Location.north]; split <;> simp [*]
  · simp [Location.north, h]
  · simp only [Location.west]; split <;> simp [*]
  · simp [Location.west, h]

theorem C8_directional_accessors_witness :
    Location.north ⟨1, 2⟩ = some ⟨0, 2⟩ ∧ Location.west ⟨1, 2⟩ = some ⟨1, 1⟩ :=
  ⟨(C8_directional_accessors ⟨1, 2⟩).2.1 (by decide),
   (C8_directional_accessors ⟨1, 2⟩).2.2.2.1 (by decide)⟩

/-- C5: `Grid::try_from` errors exactly when some row's length differs from
the first row's length; the empty input yields the valid empty grid; and on
success `rows * cols` is the total element count and `get` at every in-range
`(r, c)` returns the original input value. -/
theorem C5_grid_tryFrom_validates {T : Type} (v : List (List T)) :
    ((∃ e, Grid.tryFrom v = Except.error e) ↔
      ∃ r ∈ v, r.length ≠ (v.head?.map List.length).getD 0) ∧
    Grid.tryFrom ([] : List (List T)) = Except.ok ⟨[], 0, 0⟩ ∧
    ∀ g : Grid T, Grid.tryFrom v = Except.ok g →
      g.rows * g.cols = (v.map List.length).sum ∧
      ∀ r c, r < g.rows → c < g.cols →
        ∃ x, (v.get? r).bind (fun row => row.get? c) = some x ∧
          g.get ⟨r, c⟩ = some x := by
  refine ⟨?_, rfl, ?_⟩
  · by_cases hbad :
        v.any (fun c => c.length != (v.head?.map List.length).getD 0) = true
    · simp only [Grid.tryFrom, hbad, if_true]
      constructor
      · intro _
        simpa [List.any_eq_true, bne_iff_ne] using hbad
      · intro _
        exact ⟨AocError.GridConstructionError "Not all rows are the same length", rfl⟩
    · simp only [Grid.tryFrom, hbad, if_false]
      constructor
      · rintro ⟨e, he⟩
        exact absurd he (by simp)
      · intro hex
        exact absurd (by simpa [List.any_eq_true, bne_iff_ne] using hex) hbad
  · intro g hok
    by_cases hbad :
        v.any (fun c => c.length != (v.head?.map List.length).getD 0) = true
    · simp [Grid.tryFrom, hbad] at hok
    · have huni : ∀ r ∈ v, r.length = (v.head?.map List.length).getD 0 := by
        simpa [List.any_eq_true, bne_iff_ne] using hbad
      have hok2 : g = ⟨v, v.length, (v.head?.map List.length).getD 0⟩ := by
        have hred : Grid.tryFrom v =
            Except.ok (⟨v, v.length, (v.head?.map List.length).getD 0⟩ : Grid T) := by
          simp [Grid.tryFrom, hbad]
        rw [hred] at hok
        exact (Except.ok.inj hok).symm
      subst hok2
      refine ⟨?_, ?_⟩
      · exact (sum_map_length_eq _ v huni).symm
      · intro r c hr hc
        obtain ⟨row, hrow⟩ : ∃ row, v.get? r = some row := by
          rw [List.get?_eq_get hr]; exact ⟨_, rfl⟩
        have hmem : row ∈ v := List.get?_mem hrow
        have hlen : row.length = (v.head?.map List.length).getD 0 := huni row hmem
        obtain ⟨x, hx⟩ : ∃ x, row.get? c = some x := by
          rw [List.get?_eq_get (show c < row.length by rw [hlen]; exact hc)]
          exact ⟨_, rfl⟩
        refine ⟨x, ?_, ?_⟩
        · rw [hrow]; exact hx
        · show (v.get? r).bind (fun row => row.get? c) = some x
          rw [hrow]; exact hx

theorem C5_grid_tryFrom_validates_witness :
    ∃ x, (([[1, 2], [3, 4]] : List (List Nat)).get? 1).bind
        (fun row => row.get? 0) = some x ∧
      (Grid.mk [[1, 2], [3, 4]] 2 2).get ⟨1, 0⟩ = some x :=
  ((C5_grid_tryFrom_validates [[1, 2], [3, 4]]).2.2 ⟨[[1, 2], [3, 4]], 2, 2⟩
    rfl).2 1 0 (by decide) (by decide)

/-- C7: the claim quantifies over *every* grid, but a jagged grid built by
`Grid::new` has in-range tile factors and still yields `none` because the
base cell is missing from the shorter row. -/
theorem C7_cex_jagged_scaled :
    (Grid.new [[(1 : Nat)], []]).get_scaled ⟨1, 0⟩ 2 (fun v _ _ => v) = none ∧
    (1 : Nat) / (Grid.new [[(1 : Nat)], []]).rows < 2 ∧
    (0 : Nat) / (Grid.new [[(1 : Nat)], []]).cols < 2 := by
  decide

/-- C7 (amended): for every **well-formed, nonempty** grid (row count and
row lengths agree with the `rows` / `cols` fields, both positive), location,
scale and transform: `get_scaled` is `none` iff a tile factor is `≥ scale`,
and otherwise returns the transform applied to the base cell at
`(row mod rows, col mod cols)` together with the two tile offsets. -/
theorem C7_amended_get_scaled {T : Type} (g : Grid T) (loc : Location)
    (scale : Nat) (f : T → Nat → Nat → T) (hrows : g.locations.length = g.rows)
    (hlen : ∀ r ∈ g.locations, r.length = g.cols)
    (hr0 : 0 < g.rows) (hc0 : 0 < g.cols) :
    (g.get_scaled loc scale f = none ↔
      scale ≤ loc.row / g.rows ∨ scale ≤ loc.col / g.cols) ∧
    (loc.row / g.rows < scale → loc.col / g.cols < scale →
      ∃ base, g.get ⟨loc.row % g.rows, loc.col % g.cols⟩ = some base ∧
        g.get_scaled loc scale f =
          some (f base (loc.row / g.rows) (loc.col / g.cols))) := by
  obtain ⟨base, hb⟩ :
      ∃ base, g.get ⟨loc.row % g.rows, loc.col % g.cols⟩ = some base := by
    have h1 : loc.row % g.rows < g.locations.length := by
      rw [hrows]; exact Nat.mod_lt _ hr0
    obtain ⟨row, hrow⟩ : ∃ row, g.locations.get? (loc.row % g.rows) = some row := by
      rw [List.get?_eq_get h1]; exact ⟨_, rfl⟩
    have h2 : loc.col % g.cols < row.length := by
      rw [hlen row (List.get?_mem hrow)]; exact Nat.mod_lt _ hc0
    obtain ⟨x, hx⟩ : ∃ x, row.get? (loc.col % g.cols) = some x := by
      rw [List.get?_eq_get h2]; exact ⟨_, rfl⟩
    refine ⟨x, ?_⟩
    show (g.locations.get? (loc.row % g.rows)).bind
      (fun r => r.get? (loc.col % g.cols)) = some x
    rw [hrow]; exact hx
  constructor
  · constructor
    · intro hn
      by_contra hcon
      push_neg at hcon
      have hcond : ¬ (scale ≤ loc.row / g.rows ∨ scale ≤ loc.col / g.cols) := by
        push_neg
        exact hcon
      simp [Grid.get_scaled, hcond, hb] at hn
    · intro hor
      simp [Grid.get_scaled, hor]
  · intro h1 h2
    have hcond : ¬ (scale ≤ loc.row / g.rows ∨ scale ≤ loc.col / g.cols) := by
      push_neg
      exact ⟨h1, h2⟩
    exact ⟨base, hb, by simp [Grid.get_scaled, hcond, hb]⟩

theorem C7_amended_get_scaled_witness :
    ((Grid.mk [[(10 : Nat), 20], [30, 40]] 2 2).get_scaled ⟨3, 1⟩ 2
        (fun v a b => v + a + b) = none ↔
      2 ≤ 3 / (Grid.mk [[(10 : Nat), 20], [30, 40]] 2 2).rows ∨
      2 ≤ 1 / (Grid.mk [[(10 : Nat), 20], [30, 40]] 2 2).cols) ∧
    (3 / (Grid.mk [[(10 : Nat), 20], [30, 40]] 2 2).rows < 2 →
      1 / (Grid.mk [[(10 : Nat), 20], [30, 40]] 2 2).cols < 2 →
      ∃ base, (Grid.mk [[(10 : Nat), 20], [30, 40]] 2 2).get ⟨3 % 2, 1 % 2⟩ =
          some base ∧
        (Grid.mk [[(10 : Nat), 20], [30, 40]] 2 2).get_scaled ⟨3, 1⟩ 2
            (fun v a b => v + a + b) =
          some (base + 3 / 2 + 1 / 2)) :=
  C7_amended_get_scaled ⟨[[10, 20], [30, 40]], 2, 2⟩ ⟨3, 1⟩ 2
    (fun v a b => v + a + b) (by decide) (by decide) (by decide) (by decide)

/-- C9: `Grid::new` performs no validation: it always yields the grid whose
`rows` is the number of input rows and whose `cols` is the first row's length
(`0` for empty input); on the jagged input `[[1], [2, 3]]` the resulting
grid violates `rows * cols = total element count` and `get` still returns
the element at column index `1 ≥ cols` of the longer row. -/
theorem C9_grid_new_no_validation {T : Type} (v : List (List T)) :
    Grid.new v = ⟨v, v.length, (v.head?.map List.length).getD 0⟩ ∧
    Grid.new ([] : List (List Nat)) = ⟨[], 0, 0⟩ ∧
    (Grid.new [[(1 : Nat)], [2, 3]]).rows * (Grid.new [[(1 : Nat)], [2, 3]]).cols ≠
      (([[(1 : Nat)], [2, 3]] : List (List Nat)).map List.length).sum ∧
    (Grid.new [[(1 : Nat)], [2, 3]]).get ⟨1, 1⟩ = some 3 ∧
    (Grid.new [[(1 : Nat)], [2, 3]]).cols ≤ 1 :=
  ⟨rfl, rfl, by decide, by decide, by decide⟩
